import Mathlib

/-!
Verification development for the libunifex epoll reactor core.

The repository provides `include/unifex/scheduler_concepts.hpp` (the
scheduler customization points and the `schedule_sender` /
`schedule_after_sender` types) and `examples/linux/io_epoll_test.cpp`
(the three-timer scenario and the pipe benchmark).  The reactor itself
(`io_epoll_context`: run loop, timer queue, cancellation plumbing) is not
part of the sources here, so it is modelled from the specification; the
definitions taken from the two source files are marked as such.
-/

namespace Unifex

/-- Modelled from the spec (§3 data model, `io_epoll_context` is not in the
sources): a `TimerEntry` is a deadline (monotonic time point, in
milliseconds), a submission sequence number used as the FIFO tie-break, and
a flag recording whether its completion continuation requests stop of the
enclosing scope (as timer 3 does in the example). -/
structure TimerEntry where
  deadline : Nat
  seq : Nat
  requestsStop : Bool
deriving DecidableEq, Repr

/-- Modelled from the spec (§3, §4.1): the reactor state observable by the
timer claims — the registered timers in submission order, the next
submission sequence number, and the reactor monotonic clock. -/
structure RState where
  timers : List TimerEntry
  nextSeq : Nat
  clock : Nat
deriving DecidableEq, Repr

/-- Dispatch order on timers: non-decreasing deadline, ties broken by
submission sequence number (spec §4.1 (a)). -/
def timerLE (a b : TimerEntry) : Prop :=
  a.deadline < b.deadline ∨ (a.deadline = b.deadline ∧ a.seq ≤ b.seq)

instance : DecidableRel timerLE := fun a b =>
  inferInstanceAs (Decidable
    (a.deadline < b.deadline ∨ (a.deadline = b.deadline ∧ a.seq ≤ b.seq)))

instance : IsTotal TimerEntry timerLE where
  total a b := by
    rcases Nat.lt_trichotomy a.deadline b.deadline with h | h | h
    · exact Or.inl (Or.inl h)
    · rcases Nat.le_total a.seq b.seq with hs | hs
      · exact Or.inl (Or.inr ⟨h, hs⟩)
      · exact Or.inr (Or.inr ⟨h.symm, hs⟩)
    · exact Or.inr (Or.inl h)

instance : IsTrans TimerEntry timerLE where
  trans a b c hab hbc := by
    rcases hab with h1 | ⟨e1, s1⟩
    · rcases hbc with h2 | ⟨e2, _⟩
      · exact Or.inl (h1.trans h2)
      · exact Or.inl (e2 ▸ h1)
    · rcases hbc with h2 | ⟨e2, s2⟩
      · exact Or.inl (e1 ▸ h2)
      · exact Or.inr ⟨e1.trans e2, s1.trans s2⟩

/-- Modelled from the spec (§4.1): the timers whose deadline has been
reached at time `t`. -/
def expired (st : RState) (t : Nat) : List TimerEntry :=
  st.timers.filter (fun e => decide (e.deadline ≤ t))

/-- Modelled from the spec (§4.1): the timers still pending at time `t`. -/
def stillPending (st : RState) (t : Nat) : List TimerEntry :=
  st.timers.filter (fun e => !(decide (e.deadline ≤ t)))

/-- Modelled from the spec (§4.1 (a)): the order in which the now-expired
timers are dispatched — non-decreasing deadline, FIFO on ties. -/
def fireOrder (st : RState) (t : Nat) : List TimerEntry :=
  List.insertionSort timerLE (expired st t)

/-- C1: the reactor fires the completions of the expired timers in
non-decreasing order of deadline, equal deadlines in submission order
(FIFO by sequence number), and every expired timer fires (the dispatch
list is a permutation of the expired set). -/
theorem fireOrder_sorted_fifo (st : RState) (t : Nat)
    (h : st.timers.Pairwise (fun a b => a.seq < b.seq)) :
    (fireOrder st t).Perm (expired st t) ∧
    (fireOrder st t).Pairwise (fun a b =>
      a.deadline ≤ b.deadline ∧ (a.deadline = b.deadline → a.seq < b.seq)) := by
  have hperm : (fireOrder st t).Perm (expired st t) :=
    List.perm_insertionSort timerLE (expired st t)
  refine ⟨hperm, ?_⟩
  have hsorted : (fireOrder st t).Sorted timerLE :=
    List.sorted_insertionSort timerLE (expired st t)
  have hne_exp : (expired st t).Pairwise (fun a b => a.seq ≠ b.seq) := by
    have h2 : (st.timers.filter (fun e => decide (e.deadline ≤ t))).Pairwise
        (fun a b => a.seq < b.seq) := h.filter _
    exact h2.imp (fun hlt => Nat.ne_of_lt hlt)
  have hne : (fireOrder st t).Pairwise (fun a b => a.seq ≠ b.seq) := by
    refine (hperm.pairwise_iff ?_).2 hne_exp
    intro a b hab
    exact fun he => hab he.symm
  have hboth := hsorted.and hne
  refine hboth.imp ?_
  rintro a b ⟨hle, hne2⟩
  rcases hle with hlt | ⟨heq, hseq⟩
  · exact ⟨Nat.le_of_lt hlt, fun he => absurd he (Nat.ne_of_lt hlt)⟩
  · exact ⟨Nat.le_of_eq heq, fun _ => Nat.lt_of_le_of_ne hseq hne2⟩

/-- Witness for C1 at a concrete reactor state: three timers, two sharing
deadline 10 submitted in order, one at deadline 5, all expired at `t = 20`. -/
theorem fireOrder_sorted_fifo_witness :
    (RState.mk [⟨10, 0, false⟩, ⟨10, 1, false⟩, ⟨5, 2, false⟩] 3 0).timers.Pairwise
      (fun a b => a.seq < b.seq) ∧
    (fireOrder (RState.mk [⟨10, 0, false⟩, ⟨10, 1, false⟩, ⟨5, 2, false⟩] 3 0) 20).Perm
      (expired (RState.mk [⟨10, 0, false⟩, ⟨10, 1, false⟩, ⟨5, 2, false⟩] 3 0) 20) ∧
    (fireOrder (RState.mk [⟨10, 0, false⟩, ⟨10, 1, false⟩, ⟨5, 2, false⟩] 3 0) 20).Pairwise
      (fun a b => a.deadline ≤ b.deadline ∧ (a.deadline = b.deadline → a.seq < b.seq)) := by
  have h : (RState.mk [⟨10, 0, false⟩, ⟨10, 1, false⟩, ⟨5, 2, false⟩] 3 0).timers.Pairwise
      (fun a b => a.seq < b.seq) := by decide
  have := fireOrder_sorted_fifo (RState.mk [⟨10, 0, false⟩, ⟨10, 1, false⟩, ⟨5, 2, false⟩] 3 0) 20 h
  exact ⟨h, this.1, this.2⟩

/-- Modelled from the spec (§4.1, §4.2, §5): the external stimuli one loop
history can observe — a timer submission (`scheduleAt` with an absolute
deadline), a cancellation request for a submitted operation, the clock
reaching time `t` (one loop iteration dispatching all now-expired timers),
and the firing of the stop token passed to `run`. -/
inductive Event where
  | submit (deadline : Nat) (requestsStop : Bool)
  | cancel (seq : Nat)
  | advance (t : Nat)
  | stop
deriving DecidableEq, Repr

/-- A continuation invocation recorded in the trace: either the value
continuation of operation `seq` ran, or its cancellation continuation ran. -/
inductive TraceEv where
  | fired (seq : Nat)
  | cancelled (seq : Nat)
deriving DecidableEq, Repr

/-- Modelled from the spec (§4.1): teardown of the remaining registered
operations — each receives its cancellation, never silence. -/
def drainTrace (st : RState) : List TraceEv :=
  st.timers.map (fun e => TraceEv.cancelled e.seq)

/-- Modelled from the spec (§4.1 (a)): one loop iteration at time `t` —
the clock advances monotonically, all now-expired timers fire in
`fireOrder`, and if one of the fired completions requests stop, the loop
tears down by cancelling everything still registered. The third component
reports whether the loop should return. -/
def stepAdvance (st : RState) (t : Nat) : RState × List TraceEv × Bool :=
  let tm := max st.clock t
  let fired := fireOrder { st with clock := tm } tm
  let firedEvs := fired.map (fun e => TraceEv.fired e.seq)
  let rem := stillPending { st with clock := tm } tm
  if fired.any (fun e => e.requestsStop) then
    ({ st with clock := tm, timers := [] },
     firedEvs ++ rem.map (fun e => TraceEv.cancelled e.seq), true)
  else
    ({ st with clock := tm, timers := rem }, firedEvs, false)

/-- Modelled from the spec (§4.1-§4.4): the reactor's reaction to one
event. Submission registers a timer with the next sequence number;
a cancellation request for a still-registered operation removes it and
invokes its cancellation continuation (cancellation after completion is a
no-op); `stop` drains every still-registered operation through its
cancellation path and returns from `run`. -/
def step (st : RState) : Event → RState × List TraceEv × Bool
  | .submit d rs =>
      ({ st with timers := st.timers ++ [⟨d, st.nextSeq, rs⟩],
                 nextSeq := st.nextSeq + 1 }, [], false)
  | .cancel s =>
      if st.timers.any (fun e => decide (e.seq = s)) then
        ({ st with timers := st.timers.filter (fun e => !(decide (e.seq = s))) },
         [TraceEv.cancelled s], false)
      else (st, [], false)
  | .advance t => stepAdvance st t
  | .stop => ({ st with timers := [] }, drainTrace st, true)

/-- Modelled from the spec (§4.1): `run` processes the event history in
order, returning (with teardown already performed by the step) as soon as
the stop token fires or a completion requests stop. -/
def runScript : RState → List Event → RState × List TraceEv
  | st, [] => (st, [])
  | st, e :: rest =>
    match step st e with
    | (st1, tr, true) => (st1, tr)
    | (st1, tr, false) =>
      let res := runScript st1 rest
      (res.1, tr ++ res.2)

/-- The reactor state before any operation is submitted. -/
def initR : RState := ⟨[], 0, 0⟩

/-- The operation an invocation belongs to. -/
def seqOf : TraceEv → Nat
  | .fired s => s
  | .cancelled s => s

/-- How many continuation invocations in a trace belong to operation `s`
(value and cancellation both count). -/
def resolutions (tr : List TraceEv) (s : Nat) : Nat :=
  tr.countP (fun ev => decide (seqOf ev = s))

/-- How many times the value continuation of operation `s` ran. -/
def firedCount (tr : List TraceEv) (s : Nat) : Nat :=
  tr.countP (fun ev => decide (ev = TraceEv.fired s))

/-- How many times the cancellation continuation of operation `s` ran. -/
def cancelledCount (tr : List TraceEv) (s : Nat) : Nat :=
  tr.countP (fun ev => decide (ev = TraceEv.cancelled s))

/-- How many registered timers carry sequence number `s`. -/
def countSeq (st : RState) (s : Nat) : Nat :=
  st.timers.countP (fun e => decide (e.seq = s))

/-- Well-formedness of a reactor state: every registered sequence number
was indeed handed out, and sequence numbers are registered in strictly
increasing (submission) order. -/
def WF (st : RState) : Prop :=
  (∀ e ∈ st.timers, e.seq < st.nextSeq) ∧
  st.timers.Pairwise (fun a b => a.seq < b.seq)

theorem countP_filter_split {α : Type} (p q : α → Bool) (l : List α) :
    (l.filter q).countP p + (l.filter (fun a => !(q a))).countP p = l.countP p := by
  induction l with
  | nil => rfl
  | cons a l ih =>
    by_cases hq : q a <;> by_cases hp : p a <;>
      simp [List.filter_cons, List.countP_cons, hq, hp] <;> omega

theorem countP_filter_of_imp {α : Type} (p q : α → Bool) (l : List α)
    (h : ∀ a, p a = true → q a = true) :
    (l.filter q).countP p = l.countP p := by
  induction l with
  | nil => rfl
  | cons a l ih =>
    by_cases hp : p a
    · have hq := h a hp
      simp [List.filter_cons, hq, List.countP_cons, hp, ih]
    · by_cases hq : q a <;> simp [List.filter_cons, hq, List.countP_cons, hp, ih]

theorem countP_seq_le_one (l : List TimerEntry) (s : Nat)
    (h : l.Pairwise (fun a b => a.seq < b.seq)) :
    l.countP (fun e => decide (e.seq = s)) ≤ 1 := by
  induction l with
  | nil => simp
  | cons a l ih =>
    rcases List.pairwise_cons.1 h with ⟨ha, hl⟩
    rw [List.countP_cons]
    by_cases he : a.seq = s
    · have hz : l.countP (fun e => decide (e.seq = s)) = 0 := by
        rw [List.countP_eq_zero]
        intro b hb
        simp only [decide_eq_true_eq]
        intro hbs
        exact absurd (ha b hb) (by omega)
      simp [hz, he]
    · have := ih hl
      simp only [he, decide_eq_true_eq, if_false, ite_false]
      omega

theorem resolutions_eq_counts (tr : List TraceEv) (s : Nat) :
    resolutions tr s = firedCount tr s + cancelledCount tr s := by
  induction tr with
  | nil => rfl
  | cons ev tr ih =>
    unfold resolutions firedCount cancelledCount at ih ⊢
    rw [List.countP_cons, List.countP_cons, List.countP_cons, ih]
    cases ev with
    | fired q =>
      by_cases hq : q = s
      · subst hq
        simp [seqOf]
        omega
      · simp [seqOf, hq]
    | cancelled q =>
      by_cases hq : q = s
      · subst hq
        simp [seqOf]
        omega
      · simp [seqOf, hq]

theorem resolutions_append (t1 t2 : List TraceEv) (s : Nat) :
    resolutions (t1 ++ t2) s = resolutions t1 s + resolutions t2 s :=
  List.countP_append _ _ _

theorem firedCount_append (t1 t2 : List TraceEv) (s : Nat) :
    firedCount (t1 ++ t2) s = firedCount t1 s + firedCount t2 s :=
  List.countP_append _ _ _

theorem cancelledCount_append (t1 t2 : List TraceEv) (s : Nat) :
    cancelledCount (t1 ++ t2) s = cancelledCount t1 s + cancelledCount t2 s :=
  List.countP_append _ _ _

theorem resolutions_fired_map (l : List TimerEntry) (s : Nat) :
    resolutions (l.map (fun e => TraceEv.fired e.seq)) s =
      l.countP (fun e => decide (e.seq = s)) := by
  unfold resolutions
  rw [List.countP_map]
  rfl

theorem resolutions_cancelled_map (l : List TimerEntry) (s : Nat) :
    resolutions (l.map (fun e => TraceEv.cancelled e.seq)) s =
      l.countP (fun e => decide (e.seq = s)) := by
  unfold resolutions
  rw [List.countP_map]
  rfl

theorem cancelledCount_cancelled_map (l : List TimerEntry) (s : Nat) :
    cancelledCount (l.map (fun e => TraceEv.cancelled e.seq)) s =
      l.countP (fun e => decide (e.seq = s)) := by
  unfold cancelledCount
  rw [List.countP_map]
  apply List.countP_congr
  intro e _
  by_cases he : e.seq = s <;> simp [he]

theorem ite_cond_one {b : Bool} (h : b = true) :
    (if b = true then 1 else 0) = (1 : Nat) := by simp [h]

theorem ite_cond_zero {b : Bool} (h : b = false) :
    (if b = true then 1 else 0) = (0 : Nat) := by simp [h]

theorem countSeq_eq_zero_of_ge (st : RState) (s : Nat) (hwf : WF st)
    (hs : st.nextSeq ≤ s) : countSeq st s = 0 := by
  unfold countSeq
  rw [List.countP_eq_zero]
  intro e he
  have := hwf.1 e he
  simp only [decide_eq_true_eq]
  omega

theorem step_stop_timers (st : RState) (e : Event)
    (h : (step st e).2.2 = true) : (step st e).1.timers = [] := by
  cases e with
  | submit d rs => simp [step] at h
  | cancel q =>
    by_cases hpres : st.timers.any (fun x => decide (x.seq = q)) <;>
      simp [step, hpres] at h
  | advance t =>
    simp only [step, stepAdvance] at h ⊢
    by_cases hstop :
        (fireOrder { st with clock := max st.clock t } (max st.clock t)).any
          (fun x => x.requestsStop)
    · rw [if_pos hstop]
    · rw [if_neg hstop] at h
      simp at h
  | stop => rfl

theorem step_conserve (st : RState) (e : Event) (hwf : WF st) :
    WF (step st e).1 ∧
    st.nextSeq ≤ (step st e).1.nextSeq ∧
    (∀ s, s < st.nextSeq →
      resolutions (step st e).2.1 s + countSeq (step st e).1 s = countSeq st s) ∧
    (∀ s, st.nextSeq ≤ s → s < (step st e).1.nextSeq →
      resolutions (step st e).2.1 s + countSeq (step st e).1 s = 1) ∧
    (∀ s, (step st e).1.nextSeq ≤ s → resolutions (step st e).2.1 s = 0) := by
  cases e with
  | submit d rs =>
    simp only [step]
    refine ⟨⟨?_, ?_⟩, Nat.le_succ _, ?_, ?_, ?_⟩
    · intro x hx
      rcases List.mem_append.1 hx with hx | hx
      · exact Nat.lt_succ_of_lt (hwf.1 x hx)
      · rcases List.mem_singleton.1 hx with rfl
        exact Nat.lt_succ_self _
    · refine List.pairwise_append.2 ⟨hwf.2, List.pairwise_singleton _ _, ?_⟩
      intro a ha b hb
      rcases List.mem_singleton.1 hb with rfl
      exact hwf.1 a ha
    · intro s hs
      have hne : st.nextSeq ≠ s := by omega
      simp [resolutions, countSeq, List.countP_append, List.countP_cons, hne]
    · intro s hs1 hs2
      have hse : s = st.nextSeq := by omega
      subst hse
      have hz : st.timers.countP (fun x => decide (x.seq = st.nextSeq)) = 0 := by
        rw [List.countP_eq_zero]
        intro x hx
        have := hwf.1 x hx
        simp only [decide_eq_true_eq]
        omega
      simp [resolutions, countSeq, List.countP_append, List.countP_cons, hz]
    · intro s _
      rfl
  | cancel q =>
    by_cases hpres : st.timers.any (fun x => decide (x.seq = q))
    · have hq_lt : q < st.nextSeq := by
        rcases List.any_eq_true.1 hpres with ⟨x, hx, hxq⟩
        have := hwf.1 x hx
        simp only [decide_eq_true_eq] at hxq
        omega
      have hcnt1 : st.timers.countP (fun x => decide (x.seq = q)) = 1 := by
        have hle := countP_seq_le_one st.timers q hwf.2
        have hpos : 0 < st.timers.countP (fun x => decide (x.seq = q)) := by
          rw [List.countP_pos_iff]
          rcases List.any_eq_true.1 hpres with ⟨x, hx, hxq⟩
          exact ⟨x, hx, hxq⟩
        omega
      simp only [step]
      rw [if_pos hpres]
      refine ⟨⟨?_, hwf.2.filter _⟩, Nat.le_refl _, ?_, ?_, ?_⟩
      · intro x hx
        exact hwf.1 x (List.mem_of_mem_filter hx)
      · intro s hs
        by_cases hqs : q = s
        · subst hqs
          have hz : (st.timers.filter (fun x => !(decide (x.seq = q)))).countP
              (fun x => decide (x.seq = q)) = 0 := by
            rw [List.countP_eq_zero]
            intro x hx
            have := List.of_mem_filter hx
            simp only [Bool.not_eq_eq_eq_not, Bool.not_true, decide_eq_false_iff_not]
              at this
            simp only [decide_eq_true_eq]
            exact this
          simp only [resolutions, countSeq, List.countP_cons, List.countP_nil, seqOf]
          rw [ite_cond_one (by simp : (decide True) = true)]
          omega
        · have hpres2 : (st.timers.filter (fun x => !(decide (x.seq = q)))).countP
              (fun x => decide (x.seq = s)) =
              st.timers.countP (fun x => decide (x.seq = s)) := by
            apply countP_filter_of_imp
            intro a ha
            simp only [decide_eq_true_eq] at ha
            simp only [Bool.not_eq_eq_eq_not, Bool.not_true, decide_eq_false_iff_not]
            omega
          have hq2 : decide (q = s) = false := by
            simp only [decide_eq_false_iff_not]
            exact hqs
          simp only [resolutions, countSeq, List.countP_cons, List.countP_nil, seqOf]
          rw [ite_cond_zero hq2]
          omega
      · intro s hs1 hs2
        dsimp only at hs2
        omega
      · intro s hs
        dsimp only at hs
        have hq2 : decide (q = s) = false := by
          simp only [decide_eq_false_iff_not]
          omega
        simp only [resolutions, List.countP_cons, List.countP_nil, seqOf]
        rw [ite_cond_zero hq2]
    · simp only [step]
      rw [if_neg hpres]
      refine ⟨hwf, Nat.le_refl _, ?_, ?_, ?_⟩
      · intro s _
        simp [resolutions]
      · intro s hs1 hs2
        dsimp only at hs2
        omega
      · intro s _
        rfl
  | advance t =>
    have hkey : ∀ s, resolutions (step st (Event.advance t)).2.1 s +
        countSeq (step st (Event.advance t)).1 s = countSeq st s := by
      intro s
      have hperm : (fireOrder { st with clock := max st.clock t }
            (max st.clock t)).countP (fun x => decide (x.seq = s)) =
          (expired { st with clock := max st.clock t }
            (max st.clock t)).countP (fun x => decide (x.seq = s)) :=
        (List.perm_insertionSort timerLE _).countP_eq _
      have hsplit := countP_filter_split (fun x => decide (x.seq = s))
        (fun x => decide (x.deadline ≤ max st.clock t)) st.timers
      simp only [step, stepAdvance]
      by_cases hstop :
          (fireOrder { st with clock := max st.clock t } (max st.clock t)).any
            (fun x => x.requestsStop)
      · rw [if_pos hstop]
        rw [resolutions_append, resolutions_fired_map, resolutions_cancelled_map]
        rw [hperm]
        simp only [countSeq, expired, stillPending] at hsplit ⊢
        simp only [List.countP_nil]
        omega
      · rw [if_neg hstop]
        rw [resolutions_fired_map, hperm]
        simp only [countSeq, expired, stillPending] at hsplit ⊢
        omega
    have hwf2 : WF (step st (Event.advance t)).1 := by
      simp only [step, stepAdvance]
      by_cases hstop :
          (fireOrder { st with clock := max st.clock t } (max st.clock t)).any
            (fun x => x.requestsStop)
      · rw [if_pos hstop]
        exact ⟨fun x hx => absurd hx (List.not_mem_nil x), List.Pairwise.nil⟩
      · rw [if_neg hstop]
        constructor
        · intro x hx
          exact hwf.1 x (List.mem_of_mem_filter hx)
        · exact hwf.2.filter _
    have hnext : (step st (Event.advance t)).1.nextSeq = st.nextSeq := by
      simp only [step, stepAdvance]
      by_cases hstop :
          (fireOrder { st with clock := max st.clock t } (max st.clock t)).any
            (fun x => x.requestsStop)
      · rw [if_pos hstop]
      · rw [if_neg hstop]
    refine ⟨hwf2, by omega, fun s _ => hkey s, ?_, ?_⟩
    · intro s hs1 hs2
      omega
    · intro s hs
      have h0 : countSeq st s = 0 := countSeq_eq_zero_of_ge st s hwf (by omega)
      have := hkey s
      omega
  | stop =>
    have hkey : ∀ s, resolutions (step st Event.stop).2.1 s = countSeq st s := by
      intro s
      simp only [step, drainTrace]
      exact resolutions_cancelled_map st.timers s
    refine ⟨⟨fun x hx => absurd hx (List.not_mem_nil x), List.Pairwise.nil⟩,
      Nat.le_refl _, ?_, ?_, ?_⟩
    · intro s _
      have h := hkey s
      have h2 : countSeq (step st Event.stop).1 s = 0 := by
        simp [step, countSeq]
      omega
    · intro s hs1 hs2
      simp only [step] at hs2
      omega
    · intro s hs
      have h0 : countSeq st s = 0 := countSeq_eq_zero_of_ge st s hwf (by
        simp only [step] at hs
        omega)
      have := hkey s
      omega

theorem runScript_stop_end (script : List Event) : ∀ st : RState,
    (runScript st (script ++ [Event.stop])).1.timers = [] := by
  induction script with
  | nil =>
    intro st
    rfl
  | cons e rest ih =>
    intro st
    show (runScript st (e :: (rest ++ [Event.stop]))).1.timers = []
    cases hstep : step st e with
    | mk st1 p =>
      cases p with
      | mk tr b =>
        cases b
        · simp only [runScript, hstep]
          exact ih st1
        · have h2 := step_stop_timers st e (by rw [hstep])
          rw [hstep] at h2
          simp only [runScript, hstep]
          exact h2

theorem runScript_conserve (script : List Event) : ∀ st : RState, WF st →
    WF (runScript st script).1 ∧
    st.nextSeq ≤ (runScript st script).1.nextSeq ∧
    (∀ s, s < st.nextSeq →
      resolutions (runScript st script).2 s + countSeq (runScript st script).1 s
        = countSeq st s) ∧
    (∀ s, st.nextSeq ≤ s → s < (runScript st script).1.nextSeq →
      resolutions (runScript st script).2 s + countSeq (runScript st script).1 s
        = 1) ∧
    (∀ s, (runScript st script).1.nextSeq ≤ s →
      resolutions (runScript st script).2 s = 0) := by
  induction script with
  | nil =>
    intro st hwf
    refine ⟨hwf, Nat.le_refl _, ?_, ?_, ?_⟩
    · intro s _
      simp [runScript, resolutions]
    · intro s hs1 hs2
      simp only [runScript] at hs2
      omega
    · intro s _
      rfl
  | cons e rest ih =>
    intro st hwf
    obtain ⟨hwf1, hle1, hc1, hd1, he1⟩ := step_conserve st e hwf
    cases hstep : step st e with
    | mk st1 p =>
      cases p with
      | mk tr b =>
        rw [hstep] at hwf1 hle1 hc1 hd1 he1
        dsimp only at hwf1 hle1 hc1 hd1 he1
        cases b
        · obtain ⟨hwf2, hle2, hc2, hd2, he2⟩ := ih st1 hwf1
          simp only [runScript, hstep]
          refine ⟨hwf2, Nat.le_trans hle1 hle2, ?_, ?_, ?_⟩
          · intro s hs
            rw [resolutions_append]
            have h1 := hc1 s hs
            have h2 := hc2 s (Nat.lt_of_lt_of_le hs hle1)
            omega
          · intro s hs1 hs2
            rw [resolutions_append]
            by_cases hmid : s < st1.nextSeq
            · have h1 := hd1 s hs1 hmid
              have h2 := hc2 s hmid
              omega
            · have h1 := he1 s (Nat.le_of_not_lt hmid)
              have h2 := hd2 s (Nat.le_of_not_lt hmid) hs2
              omega
          · intro s hs
            rw [resolutions_append]
            have h1 := he1 s (Nat.le_trans hle2 hs)
            have h2 := he2 s hs
            omega
        · simp only [runScript, hstep]
          exact ⟨hwf1, hle1, hc1, hd1, he1⟩

/-- C3: while the reactor is alive every registered operation is resolved
exactly once — after a run whose stop token eventually fires, no operation
remains registered, every submitted operation got exactly one resolution
(value or cancellation), and the teardown drain delivers exactly one
cancellation to each operation registered at stop time. -/
theorem run_resolves_every_operation (script : List Event) :
    (runScript initR (script ++ [Event.stop])).1.timers = [] ∧
    (∀ s, s < (runScript initR (script ++ [Event.stop])).1.nextSeq →
      resolutions (runScript initR (script ++ [Event.stop])).2 s = 1) ∧
    (∀ st : RState, ∀ s, cancelledCount (drainTrace st) s = countSeq st s) := by
  have hwf0 : WF initR :=
    ⟨fun e he => absurd he (List.not_mem_nil e), List.Pairwise.nil⟩
  obtain ⟨hwf, hle, hc, hd, he⟩ :=
    runScript_conserve (script ++ [Event.stop]) initR hwf0
  have hemp := runScript_stop_end script initR
  refine ⟨hemp, ?_, ?_⟩
  · intro s hs
    have h1 := hd s (Nat.zero_le s) hs
    have h2 : countSeq (runScript initR (script ++ [Event.stop])).1 s = 0 := by
      unfold countSeq
      rw [hemp]
      rfl
    omega
  · intro st s
    exact cancelledCount_cancelled_map st.timers s

/-- Witness for C3: a run that submits one timer and is then stopped
resolves that timer exactly once. -/
theorem run_resolves_every_operation_witness :
    resolutions (runScript initR ([Event.submit 5 false] ++ [Event.stop])).2 0 = 1 :=
  (run_resolves_every_operation [Event.submit 5 false]).2.1 0 (by decide)

/-- Whether processing the event history makes `run` return before the
history's end (a stop token firing or a completion requesting stop). -/
def runStops : RState → List Event → Bool
  | _, [] => false
  | st, e :: rest =>
    match step st e with
    | (_, _, true) => true
    | (st1, _, false) => runStops st1 rest

theorem runScript_timers_empty_of_stops (l1 : List Event) : ∀ st : RState,
    runStops st l1 = true → (runScript st l1).1.timers = [] := by
  induction l1 with
  | nil =>
    intro st h
    simp [runStops] at h
  | cons e rest ih =>
    intro st h
    cases hstep : step st e with
    | mk st1 p =>
      cases p with
      | mk tr b =>
        cases b
        · simp only [runStops, hstep] at h
          simp only [runScript, hstep]
          exact ih st1 h
        · have h2 := step_stop_timers st e (by rw [hstep])
          rw [hstep] at h2
          simp only [runScript, hstep]
          exact h2

theorem runScript_append_of_not_stops (l1 : List Event) :
    ∀ (st : RState) (l2 : List Event), runStops st l1 = false →
    runScript st (l1 ++ l2) =
      ((runScript (runScript st l1).1 l2).1,
       (runScript st l1).2 ++ (runScript (runScript st l1).1 l2).2) := by
  induction l1 with
  | nil =>
    intro st l2 _
    simp [runScript]
  | cons e rest ih =>
    intro st l2 h
    cases hstep : step st e with
    | mk st1 p =>
      cases p with
      | mk tr b =>
        cases b
        · simp only [runStops, hstep] at h
          have ihr := ih st1 l2 h
          show runScript st (e :: (rest ++ l2)) = _
          simp only [runScript, hstep, ihr]
          rw [List.append_assoc]
        · simp only [runStops, hstep] at h
          exact Bool.noConfusion h

/-- C4: a timer cancelled strictly before its deadline (it is still
registered, and the reactor clock has not reached its deadline) never runs
its value continuation, and its cancellation continuation runs exactly
once, over the whole rest of the run. -/
theorem cancel_before_deadline (pre post : List Event) (s : Nat)
    (hreg : countSeq (runScript initR pre).1 s = 1)
    (hbefore : ∀ e ∈ (runScript initR pre).1.timers, e.seq = s →
      (runScript initR pre).1.clock < e.deadline) :
    firedCount (runScript initR (pre ++ Event.cancel s :: post)).2 s = 0 ∧
    cancelledCount (runScript initR (pre ++ Event.cancel s :: post)).2 s = 1 := by
  have hwf0 : WF initR :=
    ⟨fun e he => absurd he (List.not_mem_nil e), List.Pairwise.nil⟩
  have hstops : runStops initR pre = false := by
    cases hb : runStops initR pre
    · rfl
    · exfalso
      have hemp := runScript_timers_empty_of_stops pre initR hb
      unfold countSeq at hreg
      rw [hemp] at hreg
      simp at hreg
  rw [runScript_append_of_not_stops pre initR (Event.cancel s :: post) hstops]
  obtain ⟨hwfP, hleP, hcP, hdP, heP⟩ := runScript_conserve pre initR hwf0
  have hpos : 0 < (runScript initR pre).1.timers.countP
      (fun x => decide (x.seq = s)) := by
    have hreg2 := hreg
    unfold countSeq at hreg2
    omega
  have hslt : s < (runScript initR pre).1.nextSeq := by
    rcases List.countP_pos_iff.1 hpos with ⟨x, hx, hxs⟩
    simp only [decide_eq_true_eq] at hxs
    have := hwfP.1 x hx
    omega
  have hresP : resolutions (runScript initR pre).2 s = 0 := by
    have h1 := hdP s (Nat.zero_le s) hslt
    omega
  have hpres : ((runScript initR pre).1.timers.any
      (fun x => decide (x.seq = s))) = true := by
    rw [List.any_eq_true]
    rcases List.countP_pos_iff.1 hpos with ⟨x, hx, hxs⟩
    exact ⟨x, hx, hxs⟩
  have hstepC : step (runScript initR pre).1 (Event.cancel s) =
      (RState.mk ((runScript initR pre).1.timers.filter
          (fun e => !(decide (e.seq = s))))
        (runScript initR pre).1.nextSeq (runScript initR pre).1.clock,
       [TraceEv.cancelled s], false) := by
    simp only [step]
    rw [if_pos hpres]
  have hrunC : runScript (runScript initR pre).1 (Event.cancel s :: post) =
      ((runScript (RState.mk ((runScript initR pre).1.timers.filter
          (fun e => !(decide (e.seq = s))))
          (runScript initR pre).1.nextSeq (runScript initR pre).1.clock) post).1,
       [TraceEv.cancelled s] ++
        (runScript (RState.mk ((runScript initR pre).1.timers.filter
          (fun e => !(decide (e.seq = s))))
          (runScript initR pre).1.nextSeq (runScript initR pre).1.clock) post).2) := by
    simp only [runScript, hstepC]
  obtain ⟨hwfC0, hleC0, hcC, hdC0, heC0⟩ :=
    step_conserve (runScript initR pre).1 (Event.cancel s) hwfP
  rw [hstepC] at hwfC0 hleC0 hcC
  dsimp only at hwfC0 hleC0 hcC
  have hres1 : resolutions [TraceEv.cancelled s] s = 1 := by
    simp [resolutions, List.countP_cons, seqOf]
  have hcntC : countSeq (RState.mk ((runScript initR pre).1.timers.filter
      (fun e => !(decide (e.seq = s))))
      (runScript initR pre).1.nextSeq (runScript initR pre).1.clock) s = 0 := by
    have := hcC s hslt
    omega
  obtain ⟨hwfPost, hlePost, hcPost, hdPost, hePost⟩ :=
    runScript_conserve post (RState.mk ((runScript initR pre).1.timers.filter
      (fun e => !(decide (e.seq = s))))
      (runScript initR pre).1.nextSeq (runScript initR pre).1.clock) hwfC0
  have hresPost : resolutions (runScript (RState.mk
      ((runScript initR pre).1.timers.filter (fun e => !(decide (e.seq = s))))
      (runScript initR pre).1.nextSeq (runScript initR pre).1.clock) post).2 s
      = 0 := by
    have := hcPost s hslt
    omega
  rw [hrunC]
  dsimp only
  have hfcP := resolutions_eq_counts (runScript initR pre).2 s
  have hfcPost := resolutions_eq_counts (runScript (RState.mk
      ((runScript initR pre).1.timers.filter (fun e => !(decide (e.seq = s))))
      (runScript initR pre).1.nextSeq (runScript initR pre).1.clock) post).2 s
  have hf1 : firedCount [TraceEv.cancelled s] s = 0 := by
    simp [firedCount, List.countP_cons]
  have hc1 : cancelledCount [TraceEv.cancelled s] s = 1 := by
    simp [cancelledCount, List.countP_cons]
  constructor
  · rw [firedCount_append, firedCount_append]
    omega
  · rw [cancelledCount_append, cancelledCount_append]
    omega

/-- Witness for C4: a timer with deadline 10 cancelled at clock 0 is
resolved through its cancellation path only, even though the clock later
passes its deadline. -/
theorem cancel_before_deadline_witness :
    countSeq (runScript initR [Event.submit 10 false]).1 0 = 1 ∧
    firedCount (runScript initR
      ([Event.submit 10 false] ++ Event.cancel 0 :: [Event.advance 20])).2 0 = 0 ∧
    cancelledCount (runScript initR
      ([Event.submit 10 false] ++ Event.cancel 0 :: [Event.advance 20])).2 0 = 1 := by
  have h := cancel_before_deadline [Event.submit 10 false] [Event.advance 20] 0
    (by decide) (by decide)
  exact ⟨by decide, h.1, h.2⟩

/-- Modelled from the spec (§5): the two parties that can race on one
operation inside a single loop iteration — the completion (value) path and
the cancellation path. -/
inductive RaceAction where
  | fireV
  | cancelV
deriving DecidableEq, Repr

/-- Modelled from the spec (§5): a single atomic claim per operation.
Each racing party first tries to claim the operation; only the party that
wins the claim runs its continuation, every later party observes the
operation as already claimed and runs nothing. The actions are processed
in their (serialized) arrival order. -/
def runRace : Bool → List RaceAction → List TraceEv
  | _, [] => []
  | claimed, a :: rest =>
    if claimed then runRace claimed rest
    else
      (match a with
        | RaceAction.fireV => TraceEv.fired 0
        | RaceAction.cancelV => TraceEv.cancelled 0) :: runRace true rest

theorem runRace_claimed (acts : List RaceAction) : runRace true acts = [] := by
  induction acts with
  | nil => rfl
  | cons a rest ih => simp [runRace, ih]

/-- C2: when a cancellation request races a completion on the same
operation in one loop iteration, in either arrival order exactly one of
the value continuation and the cancellation continuation executes — never
both, never neither. -/
theorem race_exactly_one (acts : List RaceAction)
    (h : acts = [RaceAction.fireV, RaceAction.cancelV] ∨
         acts = [RaceAction.cancelV, RaceAction.fireV]) :
    firedCount (runRace false acts) 0 + cancelledCount (runRace false acts) 0
      = 1 := by
  rcases h with h | h <;> subst h <;> decide

/-- Witness for C2: the cancellation arriving first wins the claim; the
completion in the same iteration then does nothing. -/
theorem race_exactly_one_witness :
    firedCount (runRace false [RaceAction.cancelV, RaceAction.fireV]) 0 +
      cancelledCount (runRace false [RaceAction.cancelV, RaceAction.fireV]) 0
      = 1 :=
  race_exactly_one [RaceAction.cancelV, RaceAction.fireV] (Or.inr rfl)

/-- The three-timer scenario of `io_epoll_test.cpp` main: timers at 1 s
(sequence 0), 2 s (sequence 1) and 1.5 s (sequence 2, whose completion
requests stop of the enclosing join), then the clock reaching 1 s and
1.5 s. -/
def threeTimerScenario : List Event :=
  [Event.submit 1000 false, Event.submit 2000 false, Event.submit 1500 true,
   Event.advance 1000, Event.advance 1500]

/-- C6: in the three-timer scenario the 1 s timer's continuation runs
first, then the 1.5 s timer's continuation; the 2 s timer's value
continuation never runs (it is cancelled); and the run completes at
1.5 s of reactor time with nothing left registered. -/
theorem three_timer_scenario_trace :
    runScript initR threeTimerScenario =
      (RState.mk [] 3 1500,
       [TraceEv.fired 0, TraceEv.fired 2, TraceEv.cancelled 1]) := by
  decide

/-- Modelled from the spec (§4.2): `scheduleAt(timePoint)` registers a
timer at the given absolute time point of the reactor clock. -/
def scheduleAt (st : RState) (tp : Nat) (rs : Bool) : RState :=
  (step st (Event.submit tp rs)).1

/-- The reactor's own monotonic clock reading (spec §4.5, `now()`). -/
def rnow (st : RState) : Nat := st.clock

/-- Modelled from the spec (§4.2): `scheduleAfter(duration)` registers a
timer whose deadline is the duration added to the reactor's monotonic
clock reading at submission time. -/
def scheduleAfter (st : RState) (d : Nat) (rs : Bool) : RState :=
  RState.mk (st.timers ++ [⟨st.clock + d, st.nextSeq, rs⟩]) (st.nextSeq + 1)
    st.clock

/-- C7: for every duration, `scheduleAfter(d)` registers exactly the timer
that `scheduleAt(now() + d)` registers, against the reactor's own
monotonic clock: relative and absolute scheduling agree. -/
theorem scheduleAfter_eq_scheduleAt_now (st : RState) (d : Nat) (rs : Bool) :
    scheduleAfter st d rs = scheduleAt st (rnow st + d) rs := rfl

/-- A description of scheduler work. It mirrors the `schedule_sender` and
`schedule_after_sender` types of `scheduler_concepts.hpp` (which hold no
reactor reference, only — for the latter — the stored duration) together
with the scheduler-native `schedule_at` description. -/
inductive Description where
  | scheduleD
  | scheduleAfterD (d : Nat)
  | scheduleAtD (tp : Nat)
deriving DecidableEq, Repr

/-- From the source (`schedule_cpo::operator()()` returns an empty
`schedule_sender` value): calling `schedule()` only constructs a
description value; paired with a reactor state it returns that state
untouched. -/
def callSchedule (st : RState) : Description × RState :=
  (Description.scheduleD, st)

/-- From the source (`schedule_after_cpo::operator()(d)` returns a
`schedule_after_sender` holding `d`): calling `scheduleAfter(d)` only
stores the duration in a description value. -/
def callScheduleAfter (st : RState) (d : Nat) : Description × RState :=
  (Description.scheduleAfterD d, st)

/-- Modelled from the spec (§4.5, the `io_epoll_context` scheduler methods
are not in the sources): `scheduleAt(tp)` only builds a description. -/
def callScheduleAt (st : RState) (tp : Nat) : Description × RState :=
  (Description.scheduleAtD tp, st)

/-- Modelled from the spec (§4.5): `now()` reads the reactor clock and
changes nothing. -/
def callNow (st : RState) : Nat × RState := (rnow st, st)

/-- Modelled from the spec (§4.5) and the source connect
(`schedule_after_sender::tag_invoke(connect)` resolves the scheduler from
the receiver and submits there): connecting a description to a
continuation is what performs the actual submission. -/
def connectDesc (st : RState) (d : Description) (rs : Bool) : RState :=
  match d with
  | Description.scheduleD => scheduleAt st (rnow st) rs
  | Description.scheduleAfterD dur => scheduleAfter st dur rs
  | Description.scheduleAtD tp => scheduleAt st tp rs

/-- C8: the four describers only construct a description value and leave
the reactor state unchanged; submission (one new registered operation)
happens only when the description is connected to a continuation. -/
theorem describers_pure (st : RState) (d tp : Nat) :
    (callSchedule st).2 = st ∧
    (callScheduleAfter st d).2 = st ∧
    (callScheduleAt st tp).2 = st ∧
    (callNow st).2 = st ∧
    (∀ desc rs, (connectDesc st desc rs).nextSeq = st.nextSeq + 1 ∧
      (connectDesc st desc rs).timers.length = st.timers.length + 1) := by
  refine ⟨rfl, rfl, rfl, rfl, ?_⟩
  intro desc rs
  cases desc <;> simp [connectDesc, scheduleAt, scheduleAfter, step]

/-- The error types a sender can declare; the two senders of
`scheduler_concepts.hpp` both use `std::exception_ptr`. -/
inductive CppType where
  | exceptionPtr
deriving DecidableEq, Repr

/-- Declared sender traits: `value_types` as a variant of tuples of types
and `error_types` as a list of error types. -/
structure SenderTraits where
  valueTypes : List (List CppType)
  errorTypes : List CppType
deriving DecidableEq, Repr

/-- From the source (`schedule_sender`, scheduler_concepts.hpp): its
`value_types` is `Variant<Tuple<>>` and its `error_types` is
`Variant<std::exception_ptr>`. -/
def schedule_sender_traits : SenderTraits :=
  SenderTraits.mk [[]] [CppType.exceptionPtr]

/-- From the source (`schedule_after_sender<Duration>`): the same declared
traits, for every Duration type parameter. -/
def schedule_after_sender_traits (D : Type) : SenderTraits :=
  SenderTraits.mk [[]] [CppType.exceptionPtr]

/-- C9: both reactor scheduling senders declare exactly one value variant,
the empty tuple, and a single generic error type. -/
theorem sender_traits_decl :
    schedule_sender_traits.valueTypes = [[]] ∧
    schedule_sender_traits.errorTypes.length = 1 ∧
    ∀ D : Type, (schedule_after_sender_traits D).valueTypes = [[]] ∧
      (schedule_after_sender_traits D).errorTypes.length = 1 :=
  ⟨rfl, rfl, fun _ => ⟨rfl, rfl⟩⟩

/-- From the source (`data` in io_epoll_test.cpp): the six bytes
written repeatedly into the pipe by the writer thread —
h, e, l, l, o, newline. -/
def pipeData : List Nat := [104, 101, 108, 108, 111, 10]

/-- Byte `i` of the stream obtained by writing `pipeData` over and over. -/
def dataByte (i : Nat) : Nat := pipeData.getD (i % 6) 0

/-- The pipe's FIFO state: the bytes currently buffered, and how many
bytes the reader has consumed so far. -/
structure PipeState where
  buf : List Nat
  rcount : Nat
deriving DecidableEq, Repr

/-- From the source (writer thread of io_epoll_test.cpp): one
`async_write_some` of the whole six-byte buffer appends it to the pipe. -/
def pipeWrite (p : PipeState) : PipeState :=
  PipeState.mk (p.buf ++ pipeData) p.rcount

/-- From the source (`async_read_some` of one byte in pipe_bench): read a
single byte from the front of the pipe; nothing if the pipe is empty. -/
def pipeRead (p : PipeState) : PipeState × List Nat :=
  match p.buf with
  | [] => (p, [])
  | b :: rest => (PipeState.mk rest (p.rcount + 1), [b])

/-- Run an interleaving of writes (`true`) and one-byte reads (`false`),
collecting the bytes read, in order. -/
def pipeRun : PipeState → List Bool → PipeState × List Nat
  | p, [] => (p, [])
  | p, true :: ops => pipeRun (pipeWrite p) ops
  | p, false :: ops =>
    let r := pipeRead p
    let rest := pipeRun r.1 ops
    (rest.1, r.2 ++ rest.2)

/-- Pipe invariant: the buffered bytes are exactly the written stream from
position `rcount` on, and only whole six-byte chunks have been written. -/
def PipeInv (p : PipeState) : Prop :=
  (∀ i, i < p.buf.length → p.buf.getD i 0 = dataByte (p.rcount + i)) ∧
  (p.rcount + p.buf.length) % 6 = 0

theorem pipeWrite_inv (p : PipeState) (h : PipeInv p) :
    PipeInv (pipeWrite p) := by
  obtain ⟨hb, hm⟩ := h
  constructor
  · intro i hi
    simp only [pipeWrite, List.length_append] at hi
    by_cases hlt : i < p.buf.length
    · rw [show (pipeWrite p).buf = p.buf ++ pipeData from rfl,
        List.getD_append p.buf pipeData 0 i hlt]
      exact hb i hlt
    · have hge : p.buf.length ≤ i := Nat.le_of_not_lt hlt
      rw [show (pipeWrite p).buf = p.buf ++ pipeData from rfl,
        List.getD_append_right p.buf pipeData 0 i hge]
      have hj : i - p.buf.length < 6 := by
        have : pipeData.length = 6 := by decide
        omega
      show pipeData.getD (i - p.buf.length) 0 =
        dataByte ((pipeWrite p).rcount + i)
      unfold dataByte
      have harith : ((pipeWrite p).rcount + i) % 6 = i - p.buf.length := by
        show (p.rcount + i) % 6 = i - p.buf.length
        omega
      rw [harith]
  · show (p.rcount + (p.buf ++ pipeData).length) % 6 = 0
    rw [List.length_append]
    have : pipeData.length = 6 := by decide
    omega

theorem pipeRun_reads (ops : List Bool) : ∀ p : PipeState, PipeInv p →
    PipeInv (pipeRun p ops).1 ∧
    (pipeRun p ops).1.rcount = p.rcount + (pipeRun p ops).2.length ∧
    (∀ i, i < (pipeRun p ops).2.length →
      (pipeRun p ops).2.getD i 0 = dataByte (p.rcount + i)) := by
  induction ops with
  | nil =>
    intro p hp
    refine ⟨hp, rfl, ?_⟩
    intro i hi
    simp [pipeRun] at hi
  | cons op ops ih =>
    intro p hp
    cases op
    · cases hbuf : p.buf with
      | nil =>
        have hread : pipeRead p = (p, []) := by
          unfold pipeRead
          rw [hbuf]
        obtain ⟨h1, h2, h3⟩ := ih p hp
        simp only [pipeRun, hread]
        exact ⟨h1, h2, h3⟩
      | cons b rest =>
        have hread : pipeRead p = (PipeState.mk rest (p.rcount + 1), [b]) := by
          unfold pipeRead
          rw [hbuf]
        have hb0 : b = dataByte p.rcount := by
          have := hp.1 0 (by rw [hbuf]; simp)
          rw [hbuf] at this
          simpa using this
        have hinv2 : PipeInv (PipeState.mk rest (p.rcount + 1)) := by
          constructor
          · intro i hi
            have := hp.1 (i + 1) (by rw [hbuf]; simpa using Nat.succ_lt_succ hi)
            rw [hbuf] at this
            simp only [List.getD_cons_succ] at this
            show rest.getD i 0 = dataByte (p.rcount + 1 + i)
            rw [this]
            congr 1
            omega
          · have := hp.2
            rw [hbuf] at this
            simp only [List.length_cons] at this
            show (p.rcount + 1 + rest.length) % 6 = 0
            omega
        obtain ⟨h1, h2, h3⟩ := ih (PipeState.mk rest (p.rcount + 1)) hinv2
        dsimp only at h2 h3
        simp only [pipeRun, hread]
        refine ⟨h1, ?_, ?_⟩
        · simp only [List.length_append, List.length_cons, List.length_nil]
          omega
        · intro i hi
          cases i with
          | zero =>
            show ([b] ++ (pipeRun (PipeState.mk rest (p.rcount + 1)) ops).2).getD
              0 0 = dataByte (p.rcount + 0)
            rw [List.singleton_append, List.getD_cons_zero, hb0]
            congr 1
          | succ j =>
            have hj : j <
                (pipeRun (PipeState.mk rest (p.rcount + 1)) ops).2.length := by
              simp only [List.length_append, List.length_cons, List.length_nil]
                at hi
              omega
            have hgj := h3 j hj
            show ([b] ++ (pipeRun (PipeState.mk rest (p.rcount + 1)) ops).2).getD
              (j + 1) 0 = dataByte (p.rcount + (j + 1))
            rw [List.singleton_append, List.getD_cons_succ, hgj]
            congr 1
            omega
    · obtain ⟨h1, h2, h3⟩ := ih (pipeWrite p) (pipeWrite_inv p hp)
      simp only [pipeRun]
      exact ⟨h1, h2, h3⟩

/-- C5: reading the pipe one byte at a time reproduces exactly the stream
of repeatedly written `hello` + newline bytes: the byte at global position
`c + i` (i.e. byte `i` after a warmup that consumed `c` bytes, giving
offset `c % 6`) equals `data[(i + offset) % 6]`; no byte is dropped or
duplicated, for every interleaving of writes and reads. -/
theorem pipe_round_trip (ops : List Bool) (c i : Nat)
    (h : c + i < (pipeRun (PipeState.mk [] 0) ops).2.length) :
    (pipeRun (PipeState.mk [] 0) ops).2.getD (c + i) 0 =
      pipeData.getD ((i + c % 6) % 6) 0 ∧
    (pipeRun (PipeState.mk [] 0) ops).2.getD (c + i) 0 = dataByte (c + i) := by
  have hinv : PipeInv (PipeState.mk [] 0) := by
    constructor
    · intro j hj
      simp at hj
    · decide
  obtain ⟨_, _, hreads⟩ := pipeRun_reads ops (PipeState.mk [] 0) hinv
  have h1 := hreads (c + i) h
  have h0 : dataByte (0 + (c + i)) = dataByte (c + i) := by
    congr 1
    omega
  rw [h0] at h1
  refine ⟨?_, h1⟩
  rw [h1]
  unfold dataByte
  congr 1
  omega

/-- Witness for C5: write one chunk, read two bytes; the byte at position
1 (c = 1, i = 0, offset 1) is `e` = `data[(0 + 1 % 6) % 6]`. -/
theorem pipe_round_trip_witness :
    1 + 0 < (pipeRun (PipeState.mk [] 0) [true, false, false]).2.length ∧
    (pipeRun (PipeState.mk [] 0) [true, false, false]).2.getD (1 + 0) 0 =
      pipeData.getD ((0 + 1 % 6) % 6) 0 := by
  refine ⟨by decide, ?_⟩
  exact (pipe_round_trip [true, false, false] 1 0 (by decide)).1

/-- From the source (io_epoll_test.cpp main, pipe benchmark): the values
the `start` and `end` steady-clock variables hold at the report point,
given the monotone clock reading `c k` at program point `k`. `start` is
first assigned at point 0 and `end` immediately after at point 1 — before
the benchmark `sync_wait` runs — and `end` is never reassigned; `start` is
reassigned at point 2, inside the lazy block that runs after warmup. The
pair is (start, end) as read by the report. -/
def benchStartEnd (c : Nat → Int) : Int × Int := (c 2, c 1)

/-- From the source: the reported duration `ms = end - start` at the
report point. -/
def reportMs (c : Nat → Int) : Int :=
  (benchStartEnd c).2 - (benchStartEnd c).1

/-- From the source: the two divisions of the final report, `ns / reps`
and `reps / ms`, written with no guard on either divisor. -/
def reportStats (reps ns : Int) (c : Nat → Int) : Int × Int :=
  (ns / reps, reps / reportMs c)

/-- C10: because `end` is captured before the benchmark and never
reassigned while `start` is reassigned after warmup, the duration
`end - start` computed by the report is never positive for any execution
(any monotone clock), and the report's divisions use `reps` and that
non-positive `ms` as divisors with no guard. -/
theorem bench_duration_not_positive (c : Nat → Int) (hm : Monotone c) :
    reportMs c ≤ 0 ∧
    (∀ reps ns, reportStats reps ns c = (ns / reps, reps / reportMs c)) := by
  constructor
  · have h12 : c 1 ≤ c 2 := hm (by omega)
    unfold reportMs benchStartEnd
    dsimp only
    omega
  · intro reps ns
    rfl

/-- Witness for C10: with a constant clock the reported duration is
exactly 0, which then stands as the divisor of the ops-per-ms division. -/
theorem bench_duration_not_positive_witness :
    reportMs (fun _ => (0 : Int)) ≤ 0 ∧
    (∀ reps ns, reportStats reps ns (fun _ => (0 : Int)) =
      (ns / reps, reps / reportMs (fun _ => (0 : Int)))) :=
  bench_duration_not_positive (fun _ => (0 : Int)) monotone_const

end Unifex
